import Mathlib

/-!
Verification of the input-value coercion core of a GraphQL implementation:
`coerceInputValue` / `coerceDefaultValue` (src/unnamed/part_000),
`validateInputValue` (src/src/utilities/validateInputValue.js),
`coerceInputLiteral` (src/src/utilities/coerceInputLiteral.js) and
`astFromValue` (src/src/utilities/astFromValue.js).

The JavaScript value universe is embedded as the inductive `Value`.
JavaScript `undefined` (the "NoValue" result) is represented by `Option.none`
on results; an absent object key / absent variable entry is represented by a
failing association-list lookup, which matches the source because the code
treats an explicitly-`undefined` entry and an absent entry identically.
JavaScript numbers are embedded abstractly as `JSNumber`, carrying exactly
the two observations the source makes on them: finiteness
(`Number.isFinite`) and the canonical decimal string (`String(value)`).
-/

/-- A JavaScript number, abstracted to the observations used by the source:
`Number.isFinite(x)` and the canonical string `String(x)`. -/
structure JSNumber where
  isFinite : Bool
  str : String
deriving DecidableEq, Repr

/-- A JavaScript value as consumed/produced by the coercion core.
Objects are association lists in property-insertion order (matching
`Object.keys` enumeration order); absence of a key plays the role of an
`undefined` property. -/
inductive Value where
  | vNull
  | vBool (b : Bool)
  | vNum (n : JSNumber)
  | vStr (s : String)
  | vList (items : List Value)
  | vObj (entries : List (String × Value))

/-- A GraphQL value-literal AST node (`ValueNode` from language/ast), the
closed set of kinds handled by the source. -/
inductive ValueNode where
  | nullV
  | boolV (b : Bool)
  | intV (s : String)
  | floatV (s : String)
  | stringV (s : String)
  | enumV (s : String)
  | listV (values : List ValueNode)
  | objectV (fields : List (String × ValueNode))
  | variableV (name : String)

/-- Outcome of a leaf type's `parseValue`, distinguishing the cases the
source distinguishes: a returned value, a thrown `GraphQLError`, a thrown
non-GraphQL error, and returning `undefined` without throwing. -/
inductive ParseResult where
  | ok (v : Value)
  | errGraphQL (message : String)
  | errOther (message : String)
  | noValue

/-- A variable-values mapping (`ObjMap<mixed>`); an entry that is explicitly
`undefined` in JS is represented by the absence of the key, which the source
treats identically (`vars[name] === undefined`). -/
abbrev VarMap := List (String × Value)

/-- A leaf (scalar or enum) input type: external collaborator exposing
`parseValue` and `parseLiteral`. `isEnum` is the `isEnumType` classification;
the `GraphQLID` identity test of astFromValue is modelled by the
distinguished name "ID" on a non-enum leaf. -/
structure LeafDef where
  name : String
  isEnum : Bool
  parseValue : Value → ParseResult
  parseLiteral : ValueNode → Option VarMap → Option Value

/-- A GraphQL input type: the closed classification used by the source
(Non-Null wrapper, List wrapper, Input Object, Leaf). An input-object field
is `(name, type, optional default value)`, listed in declaration order
(the `Object.values(type.getFields())` order). -/
inductive GQLType where
  | nonNull (ofType : GQLType)
  | listT (ofType : GQLType)
  | inputObject (name : String) (fields : List (String × GQLType × Option Value))
  | leaf (l : LeafDef)

/-- An input-object field descriptor. -/
abbrev GQLField := String × GQLType × Option Value

def fieldName (f : GQLField) : String := f.1

def fieldType (f : GQLField) : GQLType := f.2.1

def fieldDefault (f : GQLField) : Option Value := f.2.2

/-- Embedding of `isNonNullType` from type/definition. -/
def isNonNullType : GQLType → Bool
  | .nonNull _ => true
  | _ => false

/-- The `inputValue == null` test of the source (true for `null` and
`undefined`; `undefined` never occurs as an embedded `Value`). -/
def isNullValue : Value → Bool
  | .vNull => true
  | _ => false

/-- Modelled from the spec: `isObjectLike` (jsutils, not under src/) — the
input is a keyed/structured value. -/
def isObjectLike : Value → Bool
  | .vObj _ => true
  | _ => false

/-- Modelled from the spec: `isIterableObject` (jsutils, not under src/) —
the input is a sequence value. -/
def isIterableObject : Value → Bool
  | .vList _ => true
  | _ => false

/-- Embedding of `getNamedType` from type/definition: strip Non-Null and List wrappers. -/
def getNamedType : GQLType → GQLType
  | .nonNull t => getNamedType t
  | .listT t => getNamedType t
  | .inputObject n fs => .inputObject n fs
  | .leaf l => .leaf l

/-- Embedding of `inspect(type)`: the printed form of an input type. -/
def typeToString : GQLType → String
  | .nonNull t => typeToString t ++ "!"
  | .listT t => "[" ++ typeToString t ++ "]"
  | .inputObject n _ => n
  | .leaf l => l.name

/-- Modelled from the spec: `isRequiredInputField` (type/definition, not
under src/) — a field is required when its type is Non-Null and it declares
no default. -/
def isRequiredInputField (f : GQLField) : Bool :=
  isNonNullType (fieldType f) && (fieldDefault f).isNone

/-- JavaScript property read `obj[key]`: first binding wins (object keys are
unique in JS, so association lists stand in for objects). -/
def propLookup (k : String) : List (String × Value) → Option Value
  | [] => none
  | (k', v) :: rest => if k' = k then some v else propLookup k rest

/-- A path segment as delivered to error callbacks by `pathToArray`:
an object field name or a list index. -/
inductive PathElem where
  | field (name : String)
  | index (i : Nat)
deriving DecidableEq, Repr

/-- The structured content of each `GraphQLError` message produced by
`validateInputValue` (one constructor per `reportInvalidValue`/`onError`
call site in the source). -/
inductive ErrKind where
  | nonNullNull (typeStr : String)
  | notObject (typeName : String)
  | requiredFieldMissing (fieldName : String) (typeStr : String)
  | unknownField (fieldName : String) (typeName : String) (suggestions : List String)
  | leafGraphQLError (message : String)
  | expectedLeafType (typeName : String) (extra : Option String)
deriving DecidableEq, Repr

/-- One invocation of the error callback: `(pathToArray(path), invalidValue,
error)`. -/
structure Err where
  path : List PathElem
  invalidValue : Value
  kind : ErrKind

/-- Modelled from the spec: `lexicalDistance` (jsutils/suggestionList, not
under src/) — a string distance used for "did you mean" suggestions. -/
def levDist (a b : List Char) : Nat :=
  match a, b with
  | [], b => b.length
  | a, [] => a.length
  | x :: xs, y :: ys =>
    if x = y then levDist xs ys
    else 1 + min (levDist xs (y :: ys)) (min (levDist (x :: xs) ys) (levDist xs ys))
termination_by (a.length, b.length)

/-- Stable insertion of a string into a list sorted by a distance key. -/
def insertByDist (d : String → Nat) (x : String) : List String → List String
  | [] => [x]
  | y :: ys => if d x < d y then x :: y :: ys else y :: insertByDist d x ys

/-- Modelled from the spec: `suggestionList` (jsutils, not under src/) —
the candidate field names ordered by closest string distance to the input. -/
def suggestionList (input : String) (options : List String) : List String :=
  options.foldr (insertByDist fun o => levDist input.toList o.toList) []

mutual

/-- Embedding of `coerceInputValueImpl` (src/unnamed/part_000 lines 73-161).
The `path` parameter of the source is omitted: it is threaded only into
recursive calls and never influences the returned value.  In the
default-value branch, when the default itself coerces to `undefined` the
source stores an `undefined`-valued property; this model omits the key
(observationally an absent property). -/
def coerceInputValueImpl (inputValue : Value) (type : GQLType) : Option Value :=
  match type with
  | .nonNull inner =>
    match inputValue with
    | .vNull => none
    | v => coerceInputValueImpl v inner
  | .listT itemType =>
    match inputValue with
    | .vNull => some .vNull
    | .vList items => (coerceListItems items itemType).map .vList
    | v =>
      -- Lists accept a non-list value as a list of one.
      (coerceInputValueImpl v itemType).map (fun c => .vList [c])
  | .inputObject _tname fields =>
    match inputValue with
    | .vNull => some .vNull
    | .vObj entries =>
      match coerceObjectFields entries fields with
      | none => none
      | some out =>
        -- Ensure every provided field is defined.
        if entries.all (fun e => fields.any (fun f => fieldName f = e.1))
        then some (.vObj out)
        else none
    | _ => none
  | .leaf l =>
    match inputValue with
    | .vNull => some .vNull
    | v =>
      match l.parseValue v with
      | .ok c => some c
      | _ => none
termination_by (sizeOf type, sizeOf inputValue)

/-- The element loop of the List branch of `coerceInputValueImpl`
(lines 93-106): any invalid element aborts the whole list. -/
def coerceListItems (items : List Value) (itemType : GQLType) : Option (List Value) :=
  match items with
  | [] => some []
  | x :: xs =>
    match coerceInputValueImpl x itemType with
    | none => none
    | some c => (coerceListItems xs itemType).map (c :: ·)
termination_by (sizeOf itemType, sizeOf items)

/-- The declared-field loop of the Input-Object branch of
`coerceInputValueImpl` (lines 121-138). -/
def coerceObjectFields (entries : List (String × Value)) (fields : List GQLField) :
    Option (List (String × Value)) :=
  match fields with
  | [] => some []
  | (fname, ftype, fdefault) :: rest =>
    match propLookup fname entries with
    | some fieldValue =>
      match coerceInputValueImpl fieldValue ftype with
      | none => none
      | some c => (coerceObjectFields entries rest).map ((fname, c) :: ·)
    | none =>
      match fdefault with
      | some d =>
        match coerceInputValueImpl d ftype with
        | some c => (coerceObjectFields entries rest).map ((fname, c) :: ·)
        | none => coerceObjectFields entries rest
      | none =>
        if isNonNullType ftype then none
        else coerceObjectFields entries rest
termination_by (sizeOf fields, sizeOf entries)

end

mutual

/-- Embedding of `validateInputValueImpl` (validateInputValue.js lines 41-152).
The `path` argument is carried directly in `pathToArray` form (the source's
linked `Path` converted root-to-leaf); errors are returned as the ordered
list of `onError` invocations. -/
def validateInputValueImpl (inputValue : Value) (type : GQLType)
    (path : List PathElem) : List Err :=
  match type with
  | .nonNull inner =>
    match inputValue with
    | .vNull => [⟨path, .vNull, .nonNullNull (typeToString (.nonNull inner))⟩]
    | v => validateInputValueImpl v inner path
  | .listT itemType =>
    match inputValue with
    | .vNull => []
    | .vList items => validateListItems items itemType path 0
    | v =>
      -- Lists accept a non-list value as a list of one.
      validateInputValueImpl v itemType path
  | .inputObject tname fields =>
    match inputValue with
    | .vNull => []
    | .vObj entries =>
      validateObjectFields entries fields tname path
        ++ ((entries.map Prod.fst).filter
              (fun k => !(fields.any (fun f => fieldName f = k)))).map
            (fun k =>
              ⟨path, .vObj entries,
               .unknownField k tname (suggestionList k (fields.map fieldName))⟩)
    | v => [⟨path, v, .notObject tname⟩]
  | .leaf l =>
    match inputValue with
    | .vNull => []
    | v =>
      match l.parseValue v with
      | .ok _ => []
      | .errGraphQL msg => [⟨path, v, .leafGraphQLError msg⟩]
      | .errOther msg => [⟨path, v, .expectedLeafType l.name (some msg)⟩]
      | .noValue => [⟨path, v, .expectedLeafType l.name none⟩]
termination_by (sizeOf type, sizeOf inputValue)

/-- The element loop of the List branch of `validateInputValueImpl`
(lines 67-75): every element is validated, none is skipped. -/
def validateListItems (items : List Value) (itemType : GQLType)
    (path : List PathElem) (index : Nat) : List Err :=
  match items with
  | [] => []
  | x :: xs =>
    validateInputValueImpl x itemType (path ++ [.index index])
      ++ validateListItems xs itemType path (index + 1)
termination_by (sizeOf itemType, sizeOf items)

/-- The declared-field loop of the Input-Object branch of
`validateInputValueImpl` (lines 93-108): descent continues across all
declared fields regardless of earlier errors. -/
def validateObjectFields (entries : List (String × Value)) (fields : List GQLField)
    (tname : String) (path : List PathElem) : List Err :=
  match fields with
  | [] => []
  | (fname, ftype, fdefault) :: rest =>
    (match propLookup fname entries with
     | some fieldValue =>
       validateInputValueImpl fieldValue ftype (path ++ [.field fname])
     | none =>
       if isRequiredInputField (fname, ftype, fdefault) then
         [⟨path, .vObj entries,
           .requiredFieldMissing fname (typeToString ftype)⟩]
       else [])
      ++ validateObjectFields entries rest tname path
termination_by (sizeOf fields, sizeOf entries)

end

/-- Embedding of `validateInputValue` (validateInputValue.js lines 33-39): the exported
entry point, returning the ordered list of error-callback invocations. -/
def validateInputValue (inputValue : Value) (type : GQLType) : List Err :=
  validateInputValueImpl inputValue type []

/-- Embedding of `coerceInputValue` (src/unnamed/part_000 lines 30-40): coerce, and on
failure re-run validation, delivering each error to the callback.  A callback
that throws is modelled by `Except.error`; the walk stops at the first
throwing invocation, as in the source. -/
def coerceInputValue {ε : Type} (inputValue : Value) (type : GQLType)
    (onError : Err → Except ε Unit) : Except ε (Option Value) :=
  match coerceInputValueImpl inputValue type with
  | some c => Except.ok (some c)
  | none =>
    ((validateInputValue inputValue type).forM onError).bind
      (fun _ => Except.ok none)

/-- Embedding of `coerceDefaultValue` (src/unnamed/part_000 lines 55-71), with the hidden
`_coercedDefaultValue` property made explicit: the descriptor's cache field
is the `Option Value` argument (`none` = the JS property is `undefined`),
and the result triple is (returned value, cache field after the call,
whether the default was (re)computed on this call). -/
def coerceDefaultValue (ftype : GQLType) (fdefault : Value)
    (cache : Option Value) : Option Value × Option Value × Bool :=
  match cache with
  | some c => (some c, some c, false)
  | none =>
    let c := coerceInputValueImpl fdefault ftype
    (c, c, true)

/-- Embedding of `isMissingVariable` (coerceInputLiteral.js lines 132-140). -/
def isMissingVariable (valueNode : ValueNode) (vars : Option VarMap) : Bool :=
  match valueNode with
  | .variableV name =>
    match vars with
    | none => true
    | some m => (propLookup name m).isNone
  | _ => false

/-- The source's `keyMap(valueNode.fields, f => f.name.value)` followed by
`fieldNodes[name]`: the binding for a key, later entries overwriting
earlier ones. -/
def keyMapLookup (k : String) : List (String × ValueNode) → Option ValueNode
  | [] => none
  | (k', n) :: rest =>
    match keyMapLookup k rest with
    | some n' => some n'
    | none => if k' = k then some n else none

mutual

/-- Embedding of `coerceInputLiteral` (coerceInputLiteral.js lines 25-128). -/
def coerceInputLiteral (valueNode : ValueNode) (type : GQLType)
    (vars : Option VarMap) : Option Value :=
  match valueNode, type with
  | .variableV name, t =>
    match vars with
    | none => none
    | some m =>
      match propLookup name m with
      | none => none -- missing variable: intentionally no value
      | some variableValue =>
        match variableValue with
        | .vNull => if isNonNullType t then none else some .vNull
        | v =>
          -- No further checking: the variable value is trusted as already
          -- coerced and validated upstream.
          some v
  | node, .nonNull inner =>
    match node with
    | .nullV => none
    | n => coerceInputLiteral n inner vars
  | .nullV, _ => some .vNull -- explicitly the value null
  | node, .listT itemType =>
    match node with
    | .listV values => (coerceLiteralListItems values itemType vars).map .vList
    | n =>
      -- Lists accept a non-list value as a list of one.
      (coerceInputLiteral n itemType vars).map (fun c => .vList [c])
  | node, .inputObject _tname fields =>
    match node with
    | .objectV nodeFields =>
      (coerceLiteralObjectFields nodeFields fields vars).map .vObj
    | _ => none
  | node, .leaf l => l.parseLiteral node vars
termination_by (sizeOf type, sizeOf valueNode)

/-- The element loop of the List branch of `coerceInputLiteral`
(lines 59-77): a missing-variable element is coerced to `null` when the item
type is nullable, otherwise the whole list is invalid. -/
def coerceLiteralListItems (values : List ValueNode) (itemType : GQLType)
    (vars : Option VarMap) : Option (List Value) :=
  match values with
  | [] => some []
  | n :: ns =>
    match coerceInputLiteral n itemType vars with
    | some itemValue => (coerceLiteralListItems ns itemType vars).map (itemValue :: ·)
    | none =>
      if isMissingVariable n vars && !isNonNullType itemType then
        (coerceLiteralListItems ns itemType vars).map (Value.vNull :: ·)
      else none
termination_by (sizeOf itemType, sizeOf values)

/-- The declared-field loop of the Input-Object branch of
`coerceInputLiteral` (lines 91-110).  `keyMapLookup` models the source's
`keyMap` (later duplicate node keys overwrite earlier ones).  As in
`coerceObjectFields`, a default that itself coerces to `undefined` is
stored by the source as an `undefined`-valued property, modelled as an
omitted key. -/
def coerceLiteralObjectFields (nodeFields : List (String × ValueNode))
    (fields : List GQLField) (vars : Option VarMap) :
    Option (List (String × Value)) :=
  match fields with
  | [] => some []
  | (fname, ftype, fdefault) :: rest =>
    match keyMapLookup fname nodeFields with
    | some fieldNode =>
      if isMissingVariable fieldNode vars then
        coerceLiteralFieldDefault fname ftype fdefault rest nodeFields vars
      else
        match coerceInputLiteral fieldNode ftype vars with
        | none => none
        | some c =>
          (coerceLiteralObjectFields nodeFields rest vars).map ((fname, c) :: ·)
    | none => coerceLiteralFieldDefault fname ftype fdefault rest nodeFields vars
termination_by (sizeOf fields, sizeOf nodeFields)

/-- The defaulted/required tail of the field loop of `coerceInputLiteral`
(lines 105-109), shared by the field-node-absent and missing-variable
branches. -/
def coerceLiteralFieldDefault (fname : String) (ftype : GQLType)
    (fdefault : Option Value) (rest : List GQLField)
    (nodeFields : List (String × ValueNode)) (vars : Option VarMap) :
    Option (List (String × Value)) :=
  match fdefault with
  | some d =>
    match coerceInputValueImpl d ftype with
    | some c =>
      (coerceLiteralObjectFields nodeFields rest vars).map ((fname, c) :: ·)
    | none => coerceLiteralObjectFields nodeFields rest vars
  | none =>
    if isNonNullType ftype then none
    else coerceLiteralObjectFields nodeFields rest vars
termination_by (sizeOf rest + 1, sizeOf nodeFields)

end

/-- Does `c` lie in a character range (inclusive)? -/
def charBetween (lo hi c : Char) : Bool :=
  lo ≤ c && c ≤ hi

/-- The `(0|[1-9][0-9]*)` body of `integerStringRegExp`
(astFromValue.js line 110): a lone zero, or a nonzero digit followed by
digits. -/
def intDigits : List Char → Bool
  | [] => false
  | c :: rest =>
    if c = '0' then rest.isEmpty
    else charBetween '1' '9' c && rest.all (charBetween '0' '9')

/-- Embedding of `integerStringRegExp.test(s)`: the regexp `-?(0|[1-9][0-9]*)` anchored at both ends. -/
def integerStringRegExp (s : String) : Bool :=
  match s.toList with
  | [] => false
  | c :: rest => if c = '-' then intDigits rest else intDigits (c :: rest)

/-- Character classes of `nameRegExp` (astFromValue.js line 113). -/
def isNameStart (c : Char) : Bool :=
  c = '_' || charBetween 'a' 'z' c || charBetween 'A' 'Z' c

def isNameContinue (c : Char) : Bool :=
  isNameStart c || charBetween '0' '9' c

/-- Embedding of `nameRegExp.test(s)`: the anchored name regexp. -/
def nameRegExp (s : String) : Bool :=
  match s.toList with
  | [] => false
  | c :: rest => isNameStart c && rest.all isNameContinue

/-- Is the (optional) named type an enum type (`isEnumType(namedType)`)? -/
def isEnumNamed : Option GQLType → Bool
  | some (.leaf l) => l.isEnum
  | _ => false

/-- The `namedType === GraphQLID` identity test, modelled by the
distinguished non-enum leaf named "ID". -/
def isIDNamed : Option GQLType → Bool
  | some (.leaf l) => !l.isEnum && l.name = "ID"
  | _ => false

/-- The field-type hint used by astFromValue for an input-object field:
`fieldDefs?.[fieldName]?.type`. -/
def objFieldTypeHint (namedType : Option GQLType) (k : String) : Option GQLType :=
  match namedType with
  | some (.inputObject _ fields) => (fields.find? (fun f => fieldName f = k)).map fieldType
  | _ => none

mutual

/-- Embedding of `astFromValue` (astFromValue.js lines 37-103).  The embedded `Value`
type is closed, so the source's trailing `TypeError` branch for
unrepresentable JavaScript values (symbols, functions, ...) is
unreachable here and has no counterpart. -/
def astFromValue (value : Value) (type : Option GQLType) : ValueNode :=
  match value with
  | .vNull => .nullV -- like JSON, a null literal for null and undefined
  | .vList items => .listV (astFromValueList items (type.map getNamedType))
  | .vObj entries => .objectV (astFromValueObj entries (type.map getNamedType))
  | .vBool b => .boolV b
  | .vNum jn =>
    -- Like JSON, a null literal is produced for non-finite values.
    if !jn.isFinite then .nullV
    else if integerStringRegExp jn.str then .intV jn.str
    else .floatV jn.str
  | .vStr s =>
    if isEnumNamed (type.map getNamedType) && nameRegExp s then .enumV s
    else if isIDNamed (type.map getNamedType) && integerStringRegExp s then .intV s
    else .stringV s
termination_by sizeOf value

/-- The per-element conversion of the List branch of `astFromValue`
(line 49): each element is converted against the named type. -/
def astFromValueList (items : List Value) (namedType : Option GQLType) :
    List ValueNode :=
  match items with
  | [] => []
  | x :: xs => astFromValue x namedType :: astFromValueList xs namedType
termination_by sizeOf items

/-- The per-key conversion of the Input-Object branch of `astFromValue`
(lines 60-64): one field node per own key of the value, in key order. -/
def astFromValueObj (entries : List (String × Value)) (namedType : Option GQLType) :
    List (String × ValueNode) :=
  match entries with
  | [] => []
  | (k, v) :: rest =>
    (k, astFromValue v (objFieldTypeHint namedType k)) :: astFromValueObj rest namedType
termination_by sizeOf entries

end

/-- A concrete Boolean scalar, standing in for `GraphQLBoolean`, used by
the evaluation witnesses. -/
def BoolLeaf : LeafDef where
  name := "Boolean"
  isEnum := false
  parseValue := fun v =>
    match v with
    | .vBool b => .ok (.vBool b)
    | _ => .noValue
  parseLiteral := fun n _ =>
    match n with
    | .boolV b => some (.vBool b)
    | _ => none

/-- The Boolean scalar as an input type. -/
def BoolT : GQLType := .leaf BoolLeaf

example : coerceInputValueImpl (.vBool true) BoolT = some (.vBool true) := by
  simp [coerceInputValueImpl, BoolT, BoolLeaf]

example : coerceInputValueImpl (.vStr "x") BoolT = none := by
  simp [coerceInputValueImpl, BoolT, BoolLeaf]

example :
    coerceInputValueImpl (.vList [.vBool true, .vBool false]) (.listT BoolT)
      = some (.vList [.vBool true, .vBool false]) := by
  simp [coerceInputValueImpl, coerceListItems, BoolT, BoolLeaf]

example :
    coerceInputValueImpl (.vBool true) (.listT BoolT)
      = some (.vList [.vBool true]) := by
  simp [coerceInputValueImpl, coerceListItems, BoolT, BoolLeaf]

/-- Delivering a list of errors to a callback that never throws succeeds. -/
theorem forM_ok_of_all_ok {ε : Type} (onError : Err → Except ε Unit) :
    ∀ l : List Err, (∀ e ∈ l, onError e = Except.ok ()) →
      l.forM onError = Except.ok () := by
  intro l h
  induction l with
  | nil => rfl
  | cons x xs ih =>
    have hx := h x (List.mem_cons_self x xs)
    have hxs := ih (fun e he => h e (List.mem_cons_of_mem x he))
    simp only [List.forM, hx, hxs]
    rfl

/-- C1: when the recursive coercion yields NoValue, `coerceInputValue`
re-runs `validateInputValue` on the same input and type, delivering each
structural error to the supplied callback in order, and if the callback
never throws it returns NoValue to its caller. -/
theorem coerceInputValue_revalidates_on_noValue {ε : Type} (v : Value)
    (t : GQLType) (onError : Err → Except ε Unit)
    (h : coerceInputValueImpl v t = none) :
    coerceInputValue v t onError
        = ((validateInputValue v t).forM onError).bind (fun _ => Except.ok none)
      ∧ ((∀ e ∈ validateInputValue v t, onError e = Except.ok ())
          → coerceInputValue v t onError = Except.ok none) := by
  constructor
  · simp [coerceInputValue, h]
  · intro hall
    simp [coerceInputValue, h, forM_ok_of_all_ok onError _ hall, Except.bind]

/-- Witness for C1: a string against the Boolean scalar fails coercion; with
a callback that never throws, the top level returns NoValue. -/
theorem coerceInputValue_revalidates_on_noValue_witness :
    coerceInputValue (.vStr "x") BoolT (fun _ => Except.ok (ε := Unit) ())
      = Except.ok none :=
  (coerceInputValue_revalidates_on_noValue (.vStr "x") BoolT _
      (by simp [coerceInputValueImpl, BoolT, BoolLeaf])).2
    (fun e _ => rfl)

/-- C4: a null input against Non-Null(T) yields NoValue from coercion and
exactly one error (with no further descent) from validation; a null-literal
node against Non-Null(T) yields NoValue from literal coercion; Non-Null
never affects the shape of `astFromValue`'s output. -/
theorem nonNull_rejects_null (t : GQLType) (vars : Option VarMap) (v : Value) :
    coerceInputValueImpl .vNull (.nonNull t) = none
      ∧ validateInputValue .vNull (.nonNull t)
          = [⟨[], .vNull, .nonNullNull (typeToString (.nonNull t))⟩]
      ∧ coerceInputLiteral .nullV (.nonNull t) vars = none
      ∧ astFromValue v (some (.nonNull t)) = astFromValue v (some t) := by
  refine ⟨?_, ?_, ?_, ?_⟩
  · simp [coerceInputValueImpl]
  · simp [validateInputValue, validateInputValueImpl]
  · simp [coerceInputLiteral]
  · cases v <;> simp [astFromValue, getNamedType]

/-- C5: literal coercion of a variable-reference node: NoValue when no
mapping is supplied or the name is absent (or explicitly undefined, which
the source treats identically); NoValue when the resolved value is null and
the expected type is Non-Null; otherwise the resolved value is returned
unchanged, with no re-validation against the expected type. -/
theorem coerceInputLiteral_variable (name : String) (t : GQLType)
    (vars : Option VarMap) :
    (vars = none → coerceInputLiteral (.variableV name) t vars = none)
      ∧ (∀ m, vars = some m → propLookup name m = none →
          coerceInputLiteral (.variableV name) t vars = none)
      ∧ (∀ m, vars = some m → propLookup name m = some .vNull →
          isNonNullType t = true →
          coerceInputLiteral (.variableV name) t vars = none)
      ∧ (∀ m w, vars = some m → propLookup name m = some w →
          (w = .vNull → isNonNullType t = false) →
          coerceInputLiteral (.variableV name) t vars = some w) := by
  refine ⟨?_, ?_, ?_, ?_⟩
  · rintro rfl
    simp [coerceInputLiteral]
  · rintro m rfl hm
    simp [coerceInputLiteral, hm]
  · rintro m rfl hm ht
    simp [coerceInputLiteral, hm, ht]
  · rintro m w rfl hm hw
    cases w with
    | vNull => simp [coerceInputLiteral, hm, hw rfl]
    | vBool b => simp [coerceInputLiteral, hm]
    | vNum n => simp [coerceInputLiteral, hm]
    | vStr s => simp [coerceInputLiteral, hm]
    | vList l => simp [coerceInputLiteral, hm]
    | vObj o => simp [coerceInputLiteral, hm]

/-- Witness for C5: a bound variable's value is passed through unchanged. -/
theorem coerceInputLiteral_variable_witness :
    coerceInputLiteral (.variableV "x") BoolT (some [("x", .vBool true)])
      = some (.vBool true) :=
  (coerceInputLiteral_variable "x" BoolT (some [("x", .vBool true)])).2.2.2
    [("x", .vBool true)] (.vBool true) rfl rfl (fun h => Value.noConfusion h)

/-- C7: value coercion promotes a non-null, non-iterable value against
List(T) to the one-element sequence of its inner coercion (NoValue
propagating), and literal coercion applies the same single-value promotion
to a non-list literal node (the inner coercion reaching the promotion only
past the variable and null-literal cases the source handles first). -/
theorem list_singleton_promotion (v : Value) (t : GQLType) (node : ValueNode)
    (vars : Option VarMap)
    (hv1 : isIterableObject v = false) (hv2 : v ≠ .vNull)
    (hn1 : ∀ ns, node ≠ .listV ns) (hn2 : node ≠ .nullV)
    (hn3 : ∀ nm, node ≠ .variableV nm) :
    coerceInputValueImpl v (.listT t)
        = (coerceInputValueImpl v t).map (fun c => .vList [c])
      ∧ coerceInputLiteral node (.listT t) vars
        = (coerceInputLiteral node t vars).map (fun c => .vList [c]) := by
  constructor
  · cases v with
    | vNull => exact absurd rfl hv2
    | vList items => simp [isIterableObject] at hv1
    | vBool b => simp [coerceInputValueImpl]
    | vNum n => simp [coerceInputValueImpl]
    | vStr s => simp [coerceInputValueImpl]
    | vObj o => simp [coerceInputValueImpl]
  · cases node with
    | nullV => exact absurd rfl hn2
    | listV ns => exact absurd rfl (hn1 ns)
    | variableV nm => exact absurd rfl (hn3 nm)
    | boolV b => simp [coerceInputLiteral]
    | intV s => simp [coerceInputLiteral]
    | floatV s => simp [coerceInputLiteral]
    | stringV s => simp [coerceInputLiteral]
    | enumV s => simp [coerceInputLiteral]
    | objectV fs => simp [coerceInputLiteral]

/-- Witness for C7: a boolean against List(Boolean) becomes a one-element
list, by value and by literal. -/
theorem list_singleton_promotion_witness :
    coerceInputValueImpl (.vBool true) (.listT BoolT)
        = some (.vList [.vBool true])
      ∧ coerceInputLiteral (.boolV true) (.listT BoolT) none
        = some (.vList [.vBool true]) := by
  have h := list_singleton_promotion (.vBool true) BoolT (.boolV true) none
    rfl (fun h => Value.noConfusion h)
    (fun ns h => ValueNode.noConfusion h) (fun h => ValueNode.noConfusion h)
    (fun nm h => ValueNode.noConfusion h)
  refine ⟨h.1.trans ?_, h.2.trans ?_⟩
  · simp [coerceInputValueImpl, BoolT, BoolLeaf]
  · simp [coerceInputLiteral, BoolT, BoolLeaf]

/-- A nonzero decimal digit is exactly a decimal digit other than zero. -/
theorem nonzero_digit (c : Char) (hc : c ≠ '0') :
    (charBetween '1' '9' c = true) ↔ (charBetween '0' '9' c = true) := by
  simp only [charBetween, Bool.and_eq_true, decide_eq_true_eq]
  constructor
  · rintro ⟨h1, h2⟩
    exact ⟨le_trans (by decide) h1, h2⟩
  · rintro ⟨h0, h9⟩
    refine ⟨?_, h9⟩
    have h : '0' < c := lt_of_le_of_ne h0 (by simpa [eq_comm] using hc)
    exact Char.lt_iff_val_lt_val.mp h

/-- The claim's reading of integer syntax for the regexp body: nonempty,
all digits, and no leading zero unless the string is exactly "0". -/
theorem intDigits_iff (l : List Char) :
    intDigits l = true ↔
      (l ≠ [] ∧ (∀ c ∈ l, charBetween '0' '9' c = true) ∧
        (l.head? = some '0' → l = ['0'])) := by
  cases l with
  | nil => simp [intDigits]
  | cons c rest =>
    by_cases hc : c = '0'
    · subst hc
      simp only [intDigits, if_pos rfl]
      constructor
      · intro h
        have hrest : rest = [] := by simpa using h
        subst hrest
        refine ⟨by simp, ?_, fun _ => rfl⟩
        intro x hx
        have : x = '0' := by simpa using hx
        subst this
        decide
      · rintro ⟨-, -, hz⟩
        have := hz rfl
        have : rest = [] := by simpa using this
        simp [this]
    · simp only [intDigits, if_neg hc]
      constructor
      · intro h
        simp only [Bool.and_eq_true] at h
        obtain ⟨h1, h2⟩ := h
        refine ⟨by simp, ?_, ?_⟩
        · intro x hx
          rcases List.mem_cons.mp hx with rfl | hx
          · exact (nonzero_digit x hc).mp h1
          · have h2' : ∀ y ∈ rest, charBetween '0' '9' y = true := by
              simpa [List.all_eq_true] using h2
            exact h2' x hx
        · intro hz
          exact absurd (by simpa using hz) hc
      · rintro ⟨-, hdig, -⟩
        have h1 := hdig c (List.mem_cons_self c rest)
        have h2 : rest.all (charBetween '0' '9') = true := by
          simp only [List.all_eq_true]
          intro x hx
          exact hdig x (List.mem_cons_of_mem _ hx)
        simp [Bool.and_eq_true, (nonzero_digit c hc).mpr h1, h2]

/-- The claim's reading of the full integer-literal syntax: an optional
leading minus, then a digit string with no leading zero unless it is
exactly zero. -/
def integerSyntaxSpec (s : String) : Prop :=
  ∃ core : List Char,
    (s.toList = core ∨ s.toList = '-' :: core) ∧ core ≠ [] ∧
    (∀ c ∈ core, charBetween '0' '9' c = true) ∧
    (core.head? = some '0' → core = ['0'])

/-- The source's `integerStringRegExp` test agrees with the claim's
description of integer syntax. -/
theorem integerStringRegExp_iff (s : String) :
    integerStringRegExp s = true ↔ integerSyntaxSpec s := by
  unfold integerStringRegExp integerSyntaxSpec
  cases hl : s.toList with
  | nil =>
    constructor
    · intro h
      exact absurd h (by decide)
    · rintro ⟨core, hcore, hne, -, -⟩
      rcases hcore with rfl | habs
      · exact (hne rfl).elim
      · exact List.noConfusion habs
  | cons c rest =>
    by_cases hc : c = '-'
    · subst hc
      simp only [if_pos rfl]
      constructor
      · intro h
        obtain ⟨hne, hdig, hz⟩ := (intDigits_iff rest).mp h
        exact ⟨rest, Or.inr rfl, hne, hdig, hz⟩
      · rintro ⟨core, hcore, hne, hdig, hz⟩
        rcases hcore with hcore | hcore
        · subst hcore
          have := hdig '-' (List.mem_cons_self _ _)
          simp [charBetween] at this
        · have : rest = core := (List.cons.injEq _ _ _ _).mp hcore |>.2
          subst this
          exact (intDigits_iff rest).mpr ⟨hne, hdig, hz⟩
    · simp only [if_neg hc]
      constructor
      · intro h
        obtain ⟨hne, hdig, hz⟩ := (intDigits_iff (c :: rest)).mp h
        exact ⟨c :: rest, Or.inl rfl, hne, hdig, hz⟩
      · rintro ⟨core, hcore, hne, hdig, hz⟩
        rcases hcore with hcore | hcore
        · subst hcore
          exact (intDigits_iff _).mpr ⟨hne, hdig, hz⟩
        · exact absurd ((List.cons.injEq _ _ _ _).mp hcore).1 hc

/-- C8: a finite number becomes an integer-literal node carrying its
canonical string form exactly when that string matches integer syntax
(optional leading minus, no leading zero unless the value is exactly zero),
otherwise a float-literal node with the canonical string; a non-finite
number becomes a null-literal node (never a failure). -/
theorem astFromValue_number_node (jn : JSNumber) (ty : Option GQLType) :
    astFromValue (.vNum jn) ty
        = (if jn.isFinite then
             (if integerStringRegExp jn.str then .intV jn.str
              else .floatV jn.str)
           else .nullV)
      ∧ (integerStringRegExp jn.str = true ↔ integerSyntaxSpec jn.str) := by
  constructor
  · cases h : jn.isFinite <;> simp [astFromValue, h]
  · exact integerStringRegExp_iff jn.str

/-- C9 (amended): for a field descriptor whose default value coerces to a
defined value, the memoization computes and writes the cache exactly once —
the first call computes and stores the coerced default, and every call made
with the populated cache returns that identical cached value without
recomputation.  (When the default coerces to NoValue the source assigns
`undefined` to the hidden cache property, leaving it unpopulated, so every
such call recomputes; see the counterexample.) -/
theorem coerceDefaultValue_memoizes (t : GQLType) (d : Value) (r : Value)
    (h : coerceInputValueImpl d t = some r) :
    coerceDefaultValue t d none = (some r, some r, true)
      ∧ (∀ c, coerceDefaultValue t d (some c) = (some c, some c, false)) := by
  constructor
  · simp [coerceDefaultValue, h]
  · intro c
    simp [coerceDefaultValue]

/-- Witness for C9: a valid Boolean default is computed once and then served
from the cache. -/
theorem coerceDefaultValue_memoizes_witness :
    coerceDefaultValue BoolT (.vBool true) none
        = (some (.vBool true), some (.vBool true), true)
      ∧ coerceDefaultValue BoolT (.vBool true) (some (.vBool true))
        = (some (.vBool true), some (.vBool true), false) := by
  have h := coerceDefaultValue_memoizes BoolT (.vBool true) (.vBool true)
    (by simp [coerceInputValueImpl, BoolT, BoolLeaf])
  exact ⟨h.1, h.2 (.vBool true)⟩

/-- Counterexample to C9 as stated: for a descriptor whose default value is
invalid for its type (a string default on the Boolean scalar), the computed
result is `undefined`, the hidden cache property stays unpopulated, and the
second call recomputes (third component `true`) instead of returning a
cached value without recomputation. -/
theorem coerceDefaultValue_recomputes_counterexample :
    coerceDefaultValue BoolT (.vStr "x") none = (none, none, true)
      ∧ coerceDefaultValue BoolT (.vStr "x")
          (coerceDefaultValue BoolT (.vStr "x") none).2.1 = (none, none, true) := by
  have hv : coerceInputValueImpl (.vStr "x") BoolT = none := by
    simp [coerceInputValueImpl, BoolT, BoolLeaf]
  constructor
  · simp [coerceDefaultValue, hv]
  · simp [coerceDefaultValue, hv]

/-- A declared field that is required and absent from the input contributes
its missing-required-field error to the field loop's output, wherever it
sits in the declaration list. -/
theorem requiredErr_mem_validateObjectFields (entries : List (String × Value))
    (tname : String) (path : List PathElem) :
    ∀ fields : List GQLField, ∀ f ∈ fields,
      propLookup (fieldName f) entries = none →
      isRequiredInputField f = true →
      (⟨path, .vObj entries,
        .requiredFieldMissing (fieldName f) (typeToString (fieldType f))⟩ : Err)
        ∈ validateObjectFields entries fields tname path := by
  intro fields
  induction fields with
  | nil =>
    intro f hf
    cases hf
  | cons g rest ih =>
    intro f hf hlook hreq
    obtain ⟨gn, gt, gd⟩ := g
    rcases List.mem_cons.mp hf with rfl | hf
    · simp only [fieldName, fieldType] at *
      simp only [validateObjectFields, hlook, hreq, if_pos]
      exact List.mem_append_left _ (List.mem_singleton.mpr rfl)
    · simp only [validateObjectFields]
      exact List.mem_append_right _ (ih f hf hlook hreq)

/-- C6: validation never stops at the first violation: an object-like input
missing two distinct required (Non-Null, no default) fields receives two
distinct missing-required-field error reports, one per missing field. -/
theorem validate_reports_each_missing_required (tname : String)
    (fields : List GQLField) (entries : List (String × Value))
    (f1 f2 : GQLField) (h1 : f1 ∈ fields) (h2 : f2 ∈ fields)
    (hne : fieldName f1 ≠ fieldName f2)
    (r1 : isRequiredInputField f1 = true) (r2 : isRequiredInputField f2 = true)
    (m1 : propLookup (fieldName f1) entries = none)
    (m2 : propLookup (fieldName f2) entries = none) :
    (⟨[], .vObj entries,
      .requiredFieldMissing (fieldName f1) (typeToString (fieldType f1))⟩ : Err)
        ∈ validateInputValue (.vObj entries) (.inputObject tname fields)
      ∧ (⟨[], .vObj entries,
          .requiredFieldMissing (fieldName f2) (typeToString (fieldType f2))⟩ : Err)
        ∈ validateInputValue (.vObj entries) (.inputObject tname fields)
      ∧ (⟨[], .vObj entries,
          .requiredFieldMissing (fieldName f1) (typeToString (fieldType f1))⟩ : Err)
        ≠ ⟨[], .vObj entries,
           .requiredFieldMissing (fieldName f2) (typeToString (fieldType f2))⟩ := by
  refine ⟨?_, ?_, ?_⟩
  · simp only [validateInputValue, validateInputValueImpl]
    exact List.mem_append_left _
      (requiredErr_mem_validateObjectFields entries tname [] fields f1 h1 m1 r1)
  · simp only [validateInputValue, validateInputValueImpl]
    exact List.mem_append_left _
      (requiredErr_mem_validateObjectFields entries tname [] fields f2 h2 m2 r2)
  · intro h
    simp only [Err.mk.injEq, ErrKind.requiredFieldMissing.injEq, true_and] at h
    exact hne h.1

/-- Witness for C6: an empty object against a type with two required Boolean
fields gets both missing-field errors. -/
theorem validate_reports_each_missing_required_witness :
    (⟨[], .vObj [], .requiredFieldMissing "a" "Boolean!"⟩ : Err)
        ∈ validateInputValue (.vObj [])
            (.inputObject "T" [("a", .nonNull BoolT, none), ("b", .nonNull BoolT, none)])
      ∧ (⟨[], .vObj [], .requiredFieldMissing "b" "Boolean!"⟩ : Err)
        ∈ validateInputValue (.vObj [])
            (.inputObject "T" [("a", .nonNull BoolT, none), ("b", .nonNull BoolT, none)]) := by
  have h := validate_reports_each_missing_required "T"
    [("a", .nonNull BoolT, none), ("b", .nonNull BoolT, none)] []
    ("a", .nonNull BoolT, none) ("b", .nonNull BoolT, none)
    (List.mem_cons_self _ _)
    (List.mem_cons_of_mem _ (List.mem_cons_self _ _))
    (by decide) rfl rfl rfl rfl
  exact ⟨h.1, h.2.1⟩

/-- The keys of a successful value-coercion field loop form an
order-preserving sublist of the declared field names. -/
theorem coerceObjectFields_keys_sublist (entries : List (String × Value)) :
    ∀ (fields : List GQLField) (out : List (String × Value)),
      coerceObjectFields entries fields = some out →
      List.Sublist (out.map Prod.fst) (fields.map fieldName) := by
  intro fields
  induction fields with
  | nil =>
    intro out h
    simp only [coerceObjectFields, Option.some.injEq] at h
    subst h
    simp
  | cons g rest ih =>
    intro out h
    obtain ⟨gn, gt, gd⟩ := g
    have hpresent : ∀ fv, propLookup gn entries = some fv →
        (match coerceInputValueImpl fv gt with
         | none => none
         | some c => Option.map (fun x => (gn, c) :: x) (coerceObjectFields entries rest))
          = some out →
        List.Sublist (out.map Prod.fst) (((gn, gt, gd) :: rest).map fieldName) := by
      intro fv _ h
      cases hc : coerceInputValueImpl fv gt with
      | none => simp [hc] at h
      | some c =>
        simp only [hc] at h
        obtain ⟨out2, h2, rfl⟩ := Option.map_eq_some'.mp h
        simp only [List.map_cons, fieldName]
        exact List.Sublist.cons₂ _ (ih out2 h2)
    cases gd with
    | some d =>
      simp only [coerceObjectFields] at h
      cases hl : propLookup gn entries with
      | some fv =>
        simp only [hl] at h
        exact hpresent fv hl h
      | none =>
        simp only [hl] at h
        cases hc : coerceInputValueImpl d gt with
        | some c =>
          simp only [hc] at h
          obtain ⟨out2, h2, rfl⟩ := Option.map_eq_some'.mp h
          simp only [List.map_cons, fieldName]
          exact List.Sublist.cons₂ _ (ih out2 h2)
        | none =>
          simp only [hc] at h
          simp only [List.map_cons, fieldName]
          exact List.Sublist.cons _ (ih out h)
    | none =>
      simp only [coerceObjectFields] at h
      cases hl : propLookup gn entries with
      | some fv =>
        simp only [hl] at h
        exact hpresent fv hl h
      | none =>
        simp only [hl] at h
        cases hnn : isNonNullType gt with
        | true => simp [hnn] at h
        | false =>
          simp only [hnn, Bool.false_eq_true, if_false] at h
          simp only [List.map_cons, fieldName]
          exact List.Sublist.cons _ (ih out h)

/-- The keys of a successful literal-coercion field loop form an
order-preserving sublist of the declared field names. -/
theorem coerceLiteralObjectFields_keys_sublist
    (nodeFields : List (String × ValueNode)) (vars : Option VarMap) :
    ∀ (fields : List GQLField) (out : List (String × Value)),
      coerceLiteralObjectFields nodeFields fields vars = some out →
      List.Sublist (out.map Prod.fst) (fields.map fieldName) := by
  intro fields
  induction fields with
  | nil =>
    intro out h
    simp only [coerceLiteralObjectFields, Option.some.injEq] at h
    subst h
    simp
  | cons g rest ih =>
    intro out h
    obtain ⟨gn, gt, gd⟩ := g
    have hdef : ∀ out, coerceLiteralFieldDefault gn gt gd rest nodeFields vars = some out →
        List.Sublist (out.map Prod.fst) (((gn, gt, gd) :: rest).map fieldName) := by
      intro out h
      cases gd with
      | some d =>
        simp only [coerceLiteralFieldDefault] at h
        cases hc : coerceInputValueImpl d gt with
        | some c =>
          simp only [hc] at h
          obtain ⟨out2, h2, rfl⟩ := Option.map_eq_some'.mp h
          simp only [List.map_cons, fieldName]
          exact List.Sublist.cons₂ _ (ih out2 h2)
        | none =>
          simp only [hc] at h
          simp only [List.map_cons, fieldName]
          exact List.Sublist.cons _ (ih out h)
      | none =>
        simp only [coerceLiteralFieldDefault] at h
        cases hnn : isNonNullType gt with
        | true => simp [hnn] at h
        | false =>
          simp only [hnn, Bool.false_eq_true, if_false] at h
          simp only [List.map_cons, fieldName]
          exact List.Sublist.cons _ (ih out h)
    simp only [coerceLiteralObjectFields] at h
    cases hl : keyMapLookup gn nodeFields with
    | some fnode =>
      simp only [hl] at h
      cases hm : isMissingVariable fnode vars with
      | true =>
        simp only [hm, if_pos] at h
        exact hdef out h
      | false =>
        simp only [hm, Bool.false_eq_true, if_false] at h
        cases hc : coerceInputLiteral fnode gt vars with
        | none => simp [hc] at h
        | some c =>
          simp only [hc] at h
          obtain ⟨out2, h2, rfl⟩ := Option.map_eq_some'.mp h
          simp only [List.map_cons, fieldName]
          exact List.Sublist.cons₂ _ (ih out2 h2)
    | none =>
      simp only [hl] at h
      exact hdef out h

/-- C10 (amended): a successful coercion of an input against an input-object
type yields either internal null or a mapping whose keys are declared field
names in declared order — for value coercion always, and for literal
coercion of any non-variable-reference node (a variable reference's resolved
value is passed through unchanged and is not constrained). -/
theorem inputObject_result_keys_declared (tname : String) (fields : List GQLField) :
    (∀ v w, coerceInputValueImpl v (.inputObject tname fields) = some w →
        w = .vNull ∨ ∃ out, w = .vObj out ∧ List.Sublist (out.map Prod.fst) (fields.map fieldName))
      ∧ (∀ node vars w, (∀ nm, node ≠ ValueNode.variableV nm) →
          coerceInputLiteral node (.inputObject tname fields) vars = some w →
          w = .vNull ∨ ∃ out, w = .vObj out ∧ List.Sublist (out.map Prod.fst) (fields.map fieldName)) := by
  constructor
  · intro v w h
    cases v with
    | vNull =>
      left
      simp only [coerceInputValueImpl, Option.some.injEq] at h
      exact h.symm
    | vObj entries =>
      right
      simp only [coerceInputValueImpl] at h
      cases ho : coerceObjectFields entries fields with
      | none => simp [ho] at h
      | some out =>
        simp only [ho] at h
        cases hall : entries.all (fun e => fields.any (fun f => fieldName f = e.1)) with
        | false => simp [hall] at h
        | true =>
          simp only [hall, if_pos] at h
          obtain rfl : Value.vObj out = w := by simpa using h
          exact ⟨out, rfl, coerceObjectFields_keys_sublist entries fields out ho⟩
    | vBool b => simp [coerceInputValueImpl] at h
    | vNum n => simp [coerceInputValueImpl] at h
    | vStr s => simp [coerceInputValueImpl] at h
    | vList items => simp [coerceInputValueImpl] at h
  · intro node vars w hnv h
    cases node with
    | variableV nm => exact absurd rfl (hnv nm)
    | nullV =>
      left
      simp only [coerceInputLiteral, Option.some.injEq] at h
      exact h.symm
    | objectV nfs =>
      right
      simp only [coerceInputLiteral] at h
      obtain ⟨out, h', rfl⟩ := Option.map_eq_some'.mp h
      exact ⟨out, rfl, coerceLiteralObjectFields_keys_sublist nfs vars fields out h'⟩
    | boolV b => simp [coerceInputLiteral] at h
    | intV s => simp [coerceInputLiteral] at h
    | floatV s => simp [coerceInputLiteral] at h
    | stringV s => simp [coerceInputLiteral] at h
    | enumV s => simp [coerceInputLiteral] at h
    | listV ns => simp [coerceInputLiteral] at h

/-- Witness for C10 (amended): an object literal against a one-field type
produces only the declared key. -/
theorem inputObject_result_keys_declared_witness :
    Value.vObj [("a", .vBool true)] = .vNull
      ∨ ∃ out, Value.vObj [("a", .vBool true)] = .vObj out
          ∧ List.Sublist (out.map Prod.fst) ([("a", BoolT, (none : Option Value))].map fieldName) :=
  (inputObject_result_keys_declared "T" [("a", BoolT, none)]).2
    (.objectV [("a", .boolV true)]) none (.vObj [("a", .vBool true)])
    (fun _ h => ValueNode.noConfusion h)
    (by simp [coerceInputLiteral, coerceLiteralObjectFields, keyMapLookup,
              coerceLiteralFieldDefault, isMissingVariable, BoolT, BoolLeaf])

/-- Counterexample to C10 as stated: literal coercion of a variable
reference against an input-object type returns the resolved variable value
unchanged, so a resolved value carrying an undeclared key ("zzz" against
declared ["a"]) is produced as-is. -/
theorem inputObject_result_keys_counterexample :
    coerceInputLiteral (.variableV "x") (.inputObject "Demo" [("a", BoolT, none)])
        (some [("x", .vObj [("zzz", .vNull)])])
        = some (.vObj [("zzz", .vNull)])
      ∧ ¬ List.Sublist ([("zzz", Value.vNull)].map Prod.fst)
            ([("a", BoolT, (none : Option Value))].map fieldName) := by
  constructor
  · simp [coerceInputLiteral, propLookup]
  · intro h
    simp only [List.map_cons, List.map_nil, fieldName] at h
    have := h.subset (List.mem_singleton.mpr rfl)
    simp at this

/-- Every error reported while validating at `path` carries `path` as a
prefix of its own path: descent only ever extends the path. -/
theorem validateInputValueImpl_path_extends :
    ∀ (n : Nat) (t : GQLType), sizeOf t ≤ n →
      ∀ (v : Value) (path : List PathElem) (e : Err),
        e ∈ validateInputValueImpl v t path → ∃ s, e.path = path ++ s := by
  intro n
  induction n using Nat.strong_induction_on with
  | _ n IH =>
    intro t hsz v path e he
    cases t with
    | nonNull inner =>
      have hlt : sizeOf inner < n := by
        simp at hsz
        omega
      cases v with
      | vNull =>
        simp only [validateInputValueImpl, List.mem_singleton] at he
        exact ⟨[], by simp [he]⟩
      | vBool b =>
        simp only [validateInputValueImpl] at he
        exact IH (sizeOf inner) hlt inner (Nat.le_refl _) _ path e he
      | vNum m =>
        simp only [validateInputValueImpl] at he
        exact IH (sizeOf inner) hlt inner (Nat.le_refl _) _ path e he
      | vStr s =>
        simp only [validateInputValueImpl] at he
        exact IH (sizeOf inner) hlt inner (Nat.le_refl _) _ path e he
      | vList items =>
        simp only [validateInputValueImpl] at he
        exact IH (sizeOf inner) hlt inner (Nat.le_refl _) _ path e he
      | vObj entries =>
        simp only [validateInputValueImpl] at he
        exact IH (sizeOf inner) hlt inner (Nat.le_refl _) _ path e he
    | listT itemType =>
      have hlt : sizeOf itemType < n := by
        simp at hsz
        omega
      have haux : ∀ (items : List Value) (idx : Nat) (e : Err),
          e ∈ validateListItems items itemType path idx →
            ∃ s, e.path = path ++ s := by
        intro items
        induction items with
        | nil =>
          intro idx e he
          simp [validateListItems] at he
        | cons x xs ihx =>
          intro idx e he
          simp only [validateListItems] at he
          rw [List.mem_append] at he
          rcases he with he | he
          · obtain ⟨s, hs⟩ := IH (sizeOf itemType) hlt itemType (Nat.le_refl _) x
              (path ++ [.index idx]) e he
            exact ⟨.index idx :: s, by simp [hs]⟩
          · exact ihx (idx + 1) e he
      cases v with
      | vNull => simp [validateInputValueImpl] at he
      | vList items =>
        simp only [validateInputValueImpl] at he
        exact haux items 0 e he
      | vBool b =>
        simp only [validateInputValueImpl] at he
        exact IH (sizeOf itemType) hlt itemType (Nat.le_refl _) _ path e he
      | vNum m =>
        simp only [validateInputValueImpl] at he
        exact IH (sizeOf itemType) hlt itemType (Nat.le_refl _) _ path e he
      | vStr s =>
        simp only [validateInputValueImpl] at he
        exact IH (sizeOf itemType) hlt itemType (Nat.le_refl _) _ path e he
      | vObj entries =>
        simp only [validateInputValueImpl] at he
        exact IH (sizeOf itemType) hlt itemType (Nat.le_refl _) _ path e he
    | inputObject tname fields =>
      cases v with
      | vNull => simp [validateInputValueImpl] at he
      | vObj entries =>
        have hauxf : ∀ (fields2 : List GQLField),
            (∀ g ∈ fields2, sizeOf (fieldType g) < n) →
            ∀ (e : Err), e ∈ validateObjectFields entries fields2 tname path →
              ∃ s, e.path = path ++ s := by
          intro fields2
          induction fields2 with
          | nil =>
            intro _ e he
            simp [validateObjectFields] at he
          | cons g rest ihf =>
            intro hall e he
            obtain ⟨gn, gt, gd⟩ := g
            simp only [validateObjectFields] at he
            rw [List.mem_append] at he
            rcases he with he | he
            · cases hl : propLookup gn entries with
              | some fv =>
                simp only [hl] at he
                have hglt : sizeOf gt < n := hall (gn, gt, gd) (List.mem_cons_self _ _)
                obtain ⟨s, hs⟩ := IH (sizeOf gt) hglt gt (Nat.le_refl _) fv
                  (path ++ [.field gn]) e he
                exact ⟨.field gn :: s, by simp [hs]⟩
              | none =>
                simp only [hl] at he
                cases hr : isRequiredInputField (gn, gt, gd) with
                | true =>
                  simp only [hr, if_pos, List.mem_singleton] at he
                  exact ⟨[], by simp [he]⟩
                | false => simp [hr] at he
            · exact ihf (fun g hg => hall g (List.mem_cons_of_mem _ hg)) e he
        simp only [validateInputValueImpl] at he
        rw [List.mem_append] at he
        rcases he with he | he
        · refine hauxf fields ?_ e he
          intro g hg
          have h1 := List.sizeOf_lt_of_mem hg
          obtain ⟨gn2, gt2, gd2⟩ := g
          simp only [fieldType]
          simp at h1 hsz
          omega
        · obtain ⟨k, hk, rfl⟩ := List.mem_map.mp he
          exact ⟨[], by simp⟩
      | vBool b =>
        simp only [validateInputValueImpl, List.mem_singleton] at he
        exact ⟨[], by simp [he]⟩
      | vNum m =>
        simp only [validateInputValueImpl, List.mem_singleton] at he
        exact ⟨[], by simp [he]⟩
      | vStr s =>
        simp only [validateInputValueImpl, List.mem_singleton] at he
        exact ⟨[], by simp [he]⟩
      | vList items =>
        simp only [validateInputValueImpl, List.mem_singleton] at he
        exact ⟨[], by simp [he]⟩
    | leaf l =>
      cases v with
      | vNull => simp [validateInputValueImpl] at he
      | vBool b =>
        simp only [validateInputValueImpl] at he
        cases hp : l.parseValue (.vBool b) <;> simp only [hp] at he <;>
          first
            | exact absurd he (List.not_mem_nil e)
            | exact ⟨[], by simp [List.mem_singleton.mp he]⟩
      | vNum m =>
        simp only [validateInputValueImpl] at he
        cases hp : l.parseValue (.vNum m) <;> simp only [hp] at he <;>
          first
            | exact absurd he (List.not_mem_nil e)
            | exact ⟨[], by simp [List.mem_singleton.mp he]⟩
      | vStr s =>
        simp only [validateInputValueImpl] at he
        cases hp : l.parseValue (.vStr s) <;> simp only [hp] at he <;>
          first
            | exact absurd he (List.not_mem_nil e)
            | exact ⟨[], by simp [List.mem_singleton.mp he]⟩
      | vList items =>
        simp only [validateInputValueImpl] at he
        cases hp : l.parseValue (.vList items) <;> simp only [hp] at he <;>
          first
            | exact absurd he (List.not_mem_nil e)
            | exact ⟨[], by simp [List.mem_singleton.mp he]⟩
      | vObj entries =>
        simp only [validateInputValueImpl] at he
        cases hp : l.parseValue (.vObj entries) <;> simp only [hp] at he <;>
          first
            | exact absurd he (List.not_mem_nil e)
            | exact ⟨[], by simp [List.mem_singleton.mp he]⟩

/-- Wrapper for `validateInputValueImpl_path_extends` at the exact size. -/
theorem validate_path_extends (t : GQLType) (v : Value) (path : List PathElem)
    (e : Err) (he : e ∈ validateInputValueImpl v t path) :
    ∃ s, e.path = path ++ s :=
  validateInputValueImpl_path_extends (sizeOf t) t (Nat.le_refl _) v path e he

/-- Is an error kind the "is not defined by type" (unknown field) report? -/
def isUnknownFieldKind : ErrKind → Bool
  | .unknownField _ _ _ => true
  | _ => false

/-- The field loop of validation never reports an unknown-field error at the
object's own path: its reports there are missing-required-field errors, and
all recursive reports carry strictly longer paths. -/
theorem validateObjectFields_no_root_unknown (entries : List (String × Value))
    (tname : String) :
    ∀ (fields2 : List GQLField) (e : Err),
      e ∈ validateObjectFields entries fields2 tname [] →
      e.path = [] → isUnknownFieldKind e.kind = false := by
  intro fields2
  induction fields2 with
  | nil =>
    intro e he
    simp [validateObjectFields] at he
  | cons g rest ihf =>
    intro e he hp
    obtain ⟨gn, gt, gd⟩ := g
    simp only [validateObjectFields] at he
    rw [List.mem_append] at he
    rcases he with he | he
    · cases hl : propLookup gn entries with
      | some fv =>
        simp only [hl] at he
        obtain ⟨s, hs⟩ := validate_path_extends gt fv [PathElem.field gn] e he
        rw [hp] at hs
        simp at hs
      | none =>
        simp only [hl] at he
        cases hr : isRequiredInputField (gn, gt, gd) with
        | true =>
          simp only [hr, if_pos, List.mem_singleton] at he
          simp [he, isUnknownFieldKind]
        | false => simp [hr] at he
    · exact ihf e he hp

/-- C3: an object-like input carrying at least one key not among the
declared field names always coerces to NoValue, and validation reports
exactly one unknown-field ("is not defined by type") error per unknown key
at the object's own path, each carrying the did-you-mean suggestions
computed by closest string distance from the declared field names. -/
theorem unknown_keys_coerce_none_and_one_error_each (tname : String)
    (fields : List GQLField) (entries : List (String × Value))
    (p : String × Value) (hp : p ∈ entries)
    (hundecl : ∀ f ∈ fields, fieldName f ≠ p.1) :
    coerceInputValueImpl (.vObj entries) (.inputObject tname fields) = none
      ∧ (validateInputValue (.vObj entries) (.inputObject tname fields)).filter
          (fun e => decide (e.path = []) && isUnknownFieldKind e.kind)
        = ((entries.map Prod.fst).filter
             (fun k => !(fields.any (fun f => fieldName f = k)))).map
            (fun k => ⟨[], .vObj entries,
              .unknownField k tname (suggestionList k (fields.map fieldName))⟩) := by
  have hall : entries.all (fun e => fields.any (fun f => fieldName f = e.1)) = false := by
    cases hb : entries.all (fun e => fields.any (fun f => fieldName f = e.1)) with
    | false => rfl
    | true =>
      exfalso
      have := (List.all_eq_true.mp hb) p hp
      obtain ⟨f, hf, hf2⟩ := List.any_eq_true.mp this
      exact hundecl f hf (by simpa using hf2)
  constructor
  · simp only [coerceInputValueImpl]
    cases ho : coerceObjectFields entries fields with
    | none => simp
    | some out => simp [hall]
  · simp only [validateInputValue, validateInputValueImpl]
    rw [List.filter_append]
    have h1 : (validateObjectFields entries fields tname []).filter
        (fun e => decide (e.path = []) && isUnknownFieldKind e.kind) = [] := by
      rw [List.filter_eq_nil_iff]
      intro e he hpred
      rw [Bool.and_eq_true, decide_eq_true_eq] at hpred
      exact absurd hpred.2
        (by simp [validateObjectFields_no_root_unknown entries tname fields e he hpred.1])
    have h2 : (((entries.map Prod.fst).filter
          (fun k => !(fields.any (fun f => fieldName f = k)))).map
            (fun k => (⟨[], .vObj entries,
              .unknownField k tname (suggestionList k (fields.map fieldName))⟩ : Err))).filter
          (fun e => decide (e.path = []) && isUnknownFieldKind e.kind)
        = ((entries.map Prod.fst).filter
             (fun k => !(fields.any (fun f => fieldName f = k)))).map
            (fun k => ⟨[], .vObj entries,
              .unknownField k tname (suggestionList k (fields.map fieldName))⟩) := by
      rw [List.filter_eq_self]
      intro e he
      obtain ⟨k, hk, rfl⟩ := List.mem_map.mp he
      simp [isUnknownFieldKind]
    rw [h1, h2, List.nil_append]

/-- Witness for C3: an object with the lone key "b" against a type declaring
only "a" coerces to NoValue and gets exactly one unknown-field error. -/
theorem unknown_keys_coerce_none_and_one_error_each_witness :
    coerceInputValueImpl (.vObj [("b", .vBool true)])
        (.inputObject "T" [("a", BoolT, none)]) = none
      ∧ (validateInputValue (.vObj [("b", .vBool true)])
             (.inputObject "T" [("a", BoolT, none)])).filter
          (fun e => decide (e.path = []) && isUnknownFieldKind e.kind)
        = ((([("b", Value.vBool true)].map Prod.fst)).filter
             (fun k => !([("a", BoolT, (none : Option Value))].any
                          (fun f => fieldName f = k)))).map
            (fun k => ⟨[], .vObj [("b", .vBool true)],
              .unknownField k "T"
                (suggestionList k ([("a", BoolT, (none : Option Value))].map fieldName))⟩) :=
  unknown_keys_coerce_none_and_one_error_each "T" [("a", BoolT, none)]
    [("b", .vBool true)] ("b", .vBool true) (List.mem_singleton.mpr rfl)
    (by
      intro f hf
      rw [List.mem_singleton] at hf
      subst hf
      simp [fieldName])

/-- The function `getNamedType` is idempotent. -/
theorem getNamedType_idem : ∀ t : GQLType,
    getNamedType (getNamedType t) = getNamedType t
  | .nonNull inner => by simpa [getNamedType] using getNamedType_idem inner
  | .listT inner => by simpa [getNamedType] using getNamedType_idem inner
  | .inputObject tname fields => by simp [getNamedType]
  | .leaf l => by simp [getNamedType]

/-- The function `astFromValue` consults its type hint only through `getNamedType`. -/
theorem astFromValue_getNamedType (v : Value) (t : GQLType) :
    astFromValue v (some t) = astFromValue v (some (getNamedType t)) := by
  cases v <;> simp [astFromValue, getNamedType_idem]

/-- The function `astFromValue` never produces a variable-reference node. -/
theorem astFromValue_ne_variable (v : Value) (nt : Option GQLType) (nm : String) :
    astFromValue v nt ≠ .variableV nm := by
  cases v with
  | vNull => simp [astFromValue]
  | vBool b => simp [astFromValue]
  | vList items => simp [astFromValue]
  | vObj entries => simp [astFromValue]
  | vNum jn =>
    simp only [astFromValue]
    split
    · simp
    · split <;> simp
  | vStr s =>
    simp only [astFromValue]
    split
    · simp
    · split <;> simp

/-- A reconstructed literal is never a missing variable. -/
theorem isMissingVariable_astFromValue (v : Value) (nt : Option GQLType)
    (vars : Option VarMap) :
    isMissingVariable (astFromValue v nt) vars = false := by
  cases h : astFromValue v nt with
  | variableV nm => exact absurd h (astFromValue_ne_variable v nt nm)
  | nullV => simp [isMissingVariable]
  | boolV b => simp [isMissingVariable]
  | intV s => simp [isMissingVariable]
  | floatV s => simp [isMissingVariable]
  | stringV s => simp [isMissingVariable]
  | enumV s => simp [isMissingVariable]
  | listV ns => simp [isMissingVariable]
  | objectV fs => simp [isMissingVariable]

/-- A key is unlooked-up exactly when it is not among the entry keys. -/
theorem propLookup_eq_none_iff (k : String) (l : List (String × Value)) :
    propLookup k l = none ↔ k ∉ l.map Prod.fst := by
  induction l with
  | nil => simp [propLookup]
  | cons p rest ih =>
    obtain ⟨k', v'⟩ := p
    by_cases hk : k' = k
    · subst hk
      simp [propLookup]
    · simp [propLookup, hk, ih, Ne.symm hk]

/-- Under unique keys, membership determines the lookup result. -/
theorem propLookup_eq_some_of_mem_nodup (k : String) (c : Value)
    (l : List (String × Value)) (hnd : (l.map Prod.fst).Nodup)
    (hm : (k, c) ∈ l) : propLookup k l = some c := by
  induction l with
  | nil => cases hm
  | cons p rest ih =>
    obtain ⟨k', v'⟩ := p
    simp only [List.map_cons, List.nodup_cons] at hnd
    rcases List.mem_cons.mp hm with heq | hm2
    · rw [Prod.mk.injEq] at heq
      obtain ⟨rfl, rfl⟩ := heq
      simp [propLookup]
    · have hk : k' ≠ k := by
        intro h
        subst h
        exact hnd.1 (List.mem_map.mpr ⟨(k', c), hm2, rfl⟩)
      simp [propLookup, hk, ih hnd.2 hm2]

/-- Under unique declared names, `find?` on a declared field's name returns
that field. -/
theorem find?_field_of_nodup (fields : List GQLField)
    (hnd : (fields.map fieldName).Nodup) (f : GQLField) (hf : f ∈ fields) :
    fields.find? (fun g => fieldName g = fieldName f) = some f := by
  induction fields with
  | nil => cases hf
  | cons g rest ih =>
    simp only [List.map_cons, List.nodup_cons] at hnd
    rcases List.mem_cons.mp hf with rfl | hf2
    · simp [List.find?]
    · have hne : fieldName g ≠ fieldName f := by
        intro h
        exact hnd.1 (h ▸ List.mem_map.mpr ⟨f, hf2, rfl⟩)
      have hd : decide (fieldName g = fieldName f) = false := by
        simp [hne]
      simp only [List.find?, hd]
      exact ih hnd.2 hf2

/-- Looking a key up in the reconstructed object literal's field nodes is
the lookup of the original entries, converted with the field's hint
(assuming unique keys, as coerced objects have). -/
theorem keyMapLookup_astFromValueObj (nt : Option GQLType) (k : String) :
    ∀ (entries : List (String × Value)), (entries.map Prod.fst).Nodup →
      keyMapLookup k (astFromValueObj entries nt)
        = (propLookup k entries).map
            (fun v => astFromValue v (objFieldTypeHint nt k)) := by
  intro entries
  induction entries with
  | nil =>
    intro _
    simp [astFromValueObj, keyMapLookup, propLookup]
  | cons p rest ih =>
    intro hnd
    obtain ⟨k', v'⟩ := p
    simp only [List.map_cons, List.nodup_cons] at hnd
    simp only [astFromValueObj]
    by_cases hk : k' = k
    · subst hk
      have hrest : propLookup k' rest = none :=
        (propLookup_eq_none_iff _ _).mpr hnd.1
      have hnone : keyMapLookup k' (astFromValueObj rest nt) = none := by
        rw [ih hnd.2, hrest]
        rfl
      simp only [keyMapLookup, hnone]
      simp [propLookup, hrest]
    · simp only [keyMapLookup, ih hnd.2]
      cases hl : propLookup k rest with
      | some w => simp [hl, propLookup, hk]
      | none => simp [hl, propLookup, hk]

/-- If a list coerces to itself, every element coerces to itself. -/
theorem coerceListItems_fixed (itemType : GQLType) :
    ∀ (items : List Value), coerceListItems items itemType = some items →
      ∀ x ∈ items, coerceInputValueImpl x itemType = some x := by
  intro items
  induction items with
  | nil =>
    intro _ x hx
    cases hx
  | cons y ys ih =>
    intro h x hx
    simp only [coerceListItems] at h
    cases hc : coerceInputValueImpl y itemType with
    | none => simp [hc] at h
    | some c =>
      simp only [hc] at h
      obtain ⟨out, ho, heq⟩ := Option.map_eq_some'.mp h
      rw [List.cons.injEq] at heq
      obtain ⟨rfl, rfl⟩ := heq
      rcases List.mem_cons.mp hx with rfl | hx2
      · exact hc
      · exact ih ho x hx2

/-- A leaf type round-trips: any value it parses to itself is recovered by
parsing the reconstructed literal.  This isolates the behavior of the
external `parseValue`/`parseLiteral` collaborators, which live outside this
core. -/
def LeafRT (l : LeafDef) : Prop :=
  ∀ v, l.parseValue v = .ok v →
    coerceInputLiteral (astFromValue v (some (.leaf l))) (.leaf l) none = some v

/-- The claim's premise "representable and already valid", propagated
through the type structure: every leaf round-trips and every input-object
declares uniquely-named fields. -/
inductive RoundTripReady : GQLType → Prop where
  | nonNull {t : GQLType} : RoundTripReady t → RoundTripReady (.nonNull t)
  | listT {t : GQLType} : RoundTripReady t → RoundTripReady (.listT t)
  | inputObject {tname : String} {fields : List GQLField} :
      (fields.map fieldName).Nodup →
      (∀ f ∈ fields, RoundTripReady (fieldType f)) →
      RoundTripReady (.inputObject tname fields)
  | leaf {l : LeafDef} : LeafRT l → RoundTripReady (.leaf l)

/-- Inversion of leaf coercion: a defined result is either null-for-null or
a successful parse. -/
theorem coerceImpl_leaf_inv (l : LeafDef) (v c : Value)
    (h : coerceInputValueImpl v (.leaf l) = some c) :
    (v = .vNull ∧ c = .vNull) ∨ l.parseValue v = .ok c := by
  cases v with
  | vNull =>
    left
    simp only [coerceInputValueImpl, Option.some.injEq] at h
    exact ⟨rfl, h.symm⟩
  | vBool b =>
    right
    simp only [coerceInputValueImpl] at h
    cases hp : l.parseValue (.vBool b) <;> simp only [hp] at h <;> try simp at h
    rw [h]
  | vNum m =>
    right
    simp only [coerceInputValueImpl] at h
    cases hp : l.parseValue (.vNum m) <;> simp only [hp] at h <;> try simp at h
    rw [h]
  | vStr s =>
    right
    simp only [coerceInputValueImpl] at h
    cases hp : l.parseValue (.vStr s) <;> simp only [hp] at h <;> try simp at h
    rw [h]
  | vList items =>
    right
    simp only [coerceInputValueImpl] at h
    cases hp : l.parseValue (.vList items) <;> simp only [hp] at h <;> try simp at h
    rw [h]
  | vObj entries =>
    right
    simp only [coerceInputValueImpl] at h
    cases hp : l.parseValue (.vObj entries) <;> simp only [hp] at h <;> try simp at h
    rw [h]

/-- Inversion of Non-Null coercion: the input is not null and the inner
coercion produced the result. -/
theorem coerceImpl_nonNull_inv (inner : GQLType) (v c : Value)
    (h : coerceInputValueImpl v (.nonNull inner) = some c) :
    v ≠ .vNull ∧ coerceInputValueImpl v inner = some c := by
  cases v with
  | vNull => simp [coerceInputValueImpl] at h
  | vBool b =>
    simp only [coerceInputValueImpl] at h
    exact ⟨fun hh => Value.noConfusion hh, h⟩
  | vNum m =>
    simp only [coerceInputValueImpl] at h
    exact ⟨fun hh => Value.noConfusion hh, h⟩
  | vStr s =>
    simp only [coerceInputValueImpl] at h
    exact ⟨fun hh => Value.noConfusion hh, h⟩
  | vList items =>
    simp only [coerceInputValueImpl] at h
    exact ⟨fun hh => Value.noConfusion hh, h⟩
  | vObj entries =>
    simp only [coerceInputValueImpl] at h
    exact ⟨fun hh => Value.noConfusion hh, h⟩

/-- The field loop of a coerced-to-itself object is replayed exactly by the
literal-coercion field loop on the reconstructed object literal. -/
theorem roundtrip_obj_loop (tname : String) (fields : List GQLField)
    (entries : List (String × Value))
    (hnodup : (entries.map Prod.fst).Nodup) :
    ∀ (fields2 : List GQLField) (out : List (String × Value)),
      (∀ f ∈ fields2, ∀ w, coerceInputValueImpl w (fieldType f) = some w →
        coerceInputLiteral (astFromValue w (some (fieldType f))) (fieldType f) none
          = some w) →
      (∀ f ∈ fields2, objFieldTypeHint (some (.inputObject tname fields)) (fieldName f)
          = some (fieldType f)) →
      (∀ k c, (k, c) ∈ out → propLookup k entries = some c) →
      coerceObjectFields entries fields2 = some out →
      coerceLiteralObjectFields
          (astFromValueObj entries (some (.inputObject tname fields))) fields2 none
        = some out := by
  intro fields2
  induction fields2 with
  | nil =>
    intro out _ _ _ h
    simp only [coerceObjectFields, Option.some.injEq] at h
    subst h
    simp [coerceLiteralObjectFields]
  | cons g rest ihf =>
    intro out hIH hfind hout h
    obtain ⟨gn, gt, gd⟩ := g
    have hIHhead := hIH (gn, gt, gd) (List.mem_cons_self _ _)
    have hfindhead := hfind (gn, gt, gd) (List.mem_cons_self _ _)
    simp only [fieldName, fieldType] at hIHhead hfindhead
    have hIHrest := fun f hf => hIH f (List.mem_cons_of_mem _ hf)
    have hfindrest := fun f hf => hfind f (List.mem_cons_of_mem _ hf)
    have hkl := keyMapLookup_astFromValueObj
      (some (.inputObject tname fields)) gn entries hnodup
    have hpresent : ∀ (fv : Value), propLookup gn entries = some fv →
        (match coerceInputValueImpl fv gt with
         | none => none
         | some c => (coerceObjectFields entries rest).map ((gn, c) :: ·)) = some out →
        ∀ gdX : Option Value,
          coerceLiteralObjectFields
              (astFromValueObj entries (some (.inputObject tname fields)))
              ((gn, gt, gdX) :: rest) none = some out := by
      intro fv hl hm gdX
      cases hc : coerceInputValueImpl fv gt with
      | none => simp [hc] at hm
      | some c =>
        simp only [hc] at hm
        obtain ⟨out2, ho2, heqo⟩ := Option.map_eq_some'.mp hm
        subst heqo
        have hc2 : c = fv := by
          have h2 := hout gn c (List.mem_cons_self _ _)
          rw [hl] at h2
          injection h2 with h2
          exact h2.symm
        have hc' : coerceInputValueImpl fv gt = some fv := by rw [hc, hc2]
        rw [hc2]
        simp only [coerceLiteralObjectFields]
        rw [hkl, hl]
        simp only [Option.map_some']
        rw [hfindhead]
        rw [isMissingVariable_astFromValue]
        simp only [Bool.false_eq_true, if_false]
        rw [hIHhead fv hc']
        rw [ihf out2 hIHrest hfindrest
          (fun k c2 hm2 => hout k c2 (List.mem_cons_of_mem _ hm2)) ho2]
        simp
    cases gd with
    | some d =>
      simp only [coerceObjectFields] at h
      cases hl : propLookup gn entries with
      | some fv =>
        simp only [hl] at h
        exact hpresent fv hl h (some d)
      | none =>
        simp only [hl] at h
        cases hc : coerceInputValueImpl d gt with
        | some dc =>
          exfalso
          simp only [hc] at h
          obtain ⟨out2, ho2, heqo⟩ := Option.map_eq_some'.mp h
          have h2 := hout gn dc (heqo ▸ List.mem_cons_self _ _)
          rw [hl] at h2
          exact Option.noConfusion h2
        | none =>
          simp only [hc] at h
          simp only [coerceLiteralObjectFields]
          rw [hkl, hl]
          simp only [Option.map_none']
          simp only [coerceLiteralFieldDefault, hc]
          exact ihf out hIHrest hfindrest hout h
    | none =>
      simp only [coerceObjectFields] at h
      cases hl : propLookup gn entries with
      | some fv =>
        simp only [hl] at h
        exact hpresent fv hl h none
      | none =>
        simp only [hl] at h
        cases hnn : isNonNullType gt with
        | true => simp [hnn] at h
        | false =>
          simp only [hnn, Bool.false_eq_true, if_false] at h
          simp only [coerceLiteralObjectFields]
          rw [hkl, hl]
          simp only [Option.map_none']
          simp only [coerceLiteralFieldDefault, hnn, Bool.false_eq_true, if_false]
          exact ihf out hIHrest hfindrest hout h

/-- Round-trip core: a value that value-coercion maps to itself is recovered
by literal-coercing its reconstructed literal, for any round-trip-ready
type. -/
theorem roundtrip_aux :
    ∀ (n : Nat) (t : GQLType), sizeOf t ≤ n → RoundTripReady t →
      ∀ v : Value, coerceInputValueImpl v t = some v →
        coerceInputLiteral (astFromValue v (some t)) t none = some v := by
  intro n
  induction n using Nat.strong_induction_on with
  | _ n IH =>
    intro t hsz hrt v hv
    cases t with
    | leaf l =>
      cases hrt with
      | leaf hlrt =>
        rcases coerceImpl_leaf_inv l v v hv with ⟨rfl, -⟩ | hok
        · simp [astFromValue, coerceInputLiteral]
        · exact hlrt v hok
    | nonNull inner =>
      cases hrt with
      | nonNull hrtI =>
        have hlt : sizeOf inner < n := by
          simp at hsz
          omega
        obtain ⟨hvne, hvI⟩ := coerceImpl_nonNull_inv inner v v hv
        have hIHinner := IH (sizeOf inner) hlt inner (Nat.le_refl _) hrtI v hvI
        have hasteq : astFromValue v (some (.nonNull inner))
            = astFromValue v (some inner) := by
          rw [astFromValue_getNamedType v (GQLType.nonNull inner),
              astFromValue_getNamedType v inner]
          simp only [getNamedType]
        rw [hasteq]
        cases hnode : astFromValue v (some inner) with
        | variableV nm => exact absurd hnode (astFromValue_ne_variable v _ nm)
        | nullV =>
          exfalso
          rw [hnode] at hIHinner
          cases inner with
          | nonNull i2 => simp [coerceInputLiteral] at hIHinner
          | listT i2 =>
            simp only [coerceInputLiteral, Option.some.injEq] at hIHinner
            exact hvne hIHinner.symm
          | inputObject a b =>
            simp only [coerceInputLiteral, Option.some.injEq] at hIHinner
            exact hvne hIHinner.symm
          | leaf l2 =>
            simp only [coerceInputLiteral, Option.some.injEq] at hIHinner
            exact hvne hIHinner.symm
        | boolV b =>
          rw [hnode] at hIHinner
          simpa only [coerceInputLiteral] using hIHinner
        | intV s =>
          rw [hnode] at hIHinner
          simpa only [coerceInputLiteral] using hIHinner
        | floatV s =>
          rw [hnode] at hIHinner
          simpa only [coerceInputLiteral] using hIHinner
        | stringV s =>
          rw [hnode] at hIHinner
          simpa only [coerceInputLiteral] using hIHinner
        | enumV s =>
          rw [hnode] at hIHinner
          simpa only [coerceInputLiteral] using hIHinner
        | listV ns =>
          rw [hnode] at hIHinner
          simpa only [coerceInputLiteral] using hIHinner
        | objectV fs =>
          rw [hnode] at hIHinner
          simpa only [coerceInputLiteral] using hIHinner
    | listT itemType =>
      cases hrt with
      | listT hrtI =>
        have hlt : sizeOf itemType < n := by
          simp at hsz
          omega
        have haux : ∀ (items2 : List Value),
            (∀ x ∈ items2, coerceInputValueImpl x itemType = some x) →
            coerceLiteralListItems
                (astFromValueList items2 (some (getNamedType itemType))) itemType none
              = some items2 := by
          intro items2
          induction items2 with
          | nil =>
            intro _
            simp [astFromValueList, coerceLiteralListItems]
          | cons x xs ihx =>
            intro hall
            have hx : coerceInputLiteral
                (astFromValue x (some (getNamedType itemType))) itemType none
                = some x := by
              rw [← astFromValue_getNamedType]
              exact IH (sizeOf itemType) hlt itemType (Nat.le_refl _) hrtI x
                (hall x (List.mem_cons_self _ _))
            simp only [astFromValueList, coerceLiteralListItems, hx]
            rw [ihx (fun y hy => hall y (List.mem_cons_of_mem _ hy))]
            simp
        cases v with
        | vNull => simp [astFromValue, coerceInputLiteral]
        | vList items =>
          simp only [coerceInputValueImpl] at hv
          obtain ⟨out, ho, heq⟩ := Option.map_eq_some'.mp hv
          rw [Value.vList.injEq] at heq
          subst heq
          have hfix := coerceListItems_fixed itemType out ho
          simp only [astFromValue, Option.map_some', getNamedType]
          simp only [coerceInputLiteral]
          rw [haux out hfix]
          rfl
        | vBool b =>
          simp only [coerceInputValueImpl] at hv
          obtain ⟨c, hc, heq⟩ := Option.map_eq_some'.mp hv
          exact Value.noConfusion heq
        | vNum m =>
          simp only [coerceInputValueImpl] at hv
          obtain ⟨c, hc, heq⟩ := Option.map_eq_some'.mp hv
          exact Value.noConfusion heq
        | vStr s =>
          simp only [coerceInputValueImpl] at hv
          obtain ⟨c, hc, heq⟩ := Option.map_eq_some'.mp hv
          exact Value.noConfusion heq
        | vObj entries =>
          simp only [coerceInputValueImpl] at hv
          obtain ⟨c, hc, heq⟩ := Option.map_eq_some'.mp hv
          exact Value.noConfusion heq
    | inputObject tname fields =>
      cases hrt with
      | inputObject hnd hrtf =>
        cases v with
        | vNull => simp [astFromValue, coerceInputLiteral]
        | vObj entries =>
          simp only [coerceInputValueImpl] at hv
          cases ho : coerceObjectFields entries fields with
          | none => simp [ho] at hv
          | some out =>
            simp only [ho] at hv
            cases hall : entries.all (fun e => fields.any (fun f => fieldName f = e.1)) with
            | false => simp [hall] at hv
            | true =>
              simp only [hall, if_true] at hv
              rw [Option.some.injEq, Value.vObj.injEq] at hv
              subst hv
              have hsub := coerceObjectFields_keys_sublist out fields out ho
              have hndE : (out.map Prod.fst).Nodup := hnd.sublist hsub
              have hIHfields : ∀ f ∈ fields, ∀ w,
                  coerceInputValueImpl w (fieldType f) = some w →
                  coerceInputLiteral (astFromValue w (some (fieldType f)))
                    (fieldType f) none = some w := by
                intro f hf w hw
                have hflt : sizeOf (fieldType f) < n := by
                  have h1 := List.sizeOf_lt_of_mem hf
                  obtain ⟨a, b, c⟩ := f
                  simp only [fieldType]
                  simp at h1 hsz
                  omega
                exact IH (sizeOf (fieldType f)) hflt (fieldType f) (Nat.le_refl _)
                  (hrtf f hf) w hw
              have hfindF : ∀ f ∈ fields,
                  objFieldTypeHint (some (.inputObject tname fields)) (fieldName f)
                    = some (fieldType f) := by
                intro f hf
                simp only [objFieldTypeHint]
                rw [find?_field_of_nodup fields hnd f hf]
                rfl
              have hout : ∀ k c, (k, c) ∈ out → propLookup k out = some c :=
                fun k c hm => propLookup_eq_some_of_mem_nodup k c out hndE hm
              have hloop := roundtrip_obj_loop tname fields out hndE fields out
                hIHfields hfindF hout ho
              simp only [astFromValue, Option.map_some', getNamedType]
              simp only [coerceInputLiteral]
              rw [hloop]
              rfl
        | vBool b => simp [coerceInputValueImpl] at hv
        | vNum m => simp [coerceInputValueImpl] at hv
        | vStr s => simp [coerceInputValueImpl] at hv
        | vList items => simp [coerceInputValueImpl] at hv

/-- The Boolean scalar round-trips. -/
theorem boolLeaf_roundtrips : LeafRT BoolLeaf := by
  intro v hpv
  cases v with
  | vBool b => simp [astFromValue, coerceInputLiteral, BoolLeaf]
  | vNull => simp [BoolLeaf] at hpv
  | vNum m => simp [BoolLeaf] at hpv
  | vStr s => simp [BoolLeaf] at hpv
  | vList items => simp [BoolLeaf] at hpv
  | vObj entries => simp [BoolLeaf] at hpv

/-- C2: for an internal value already valid for a round-trip-ready input
type — valid in the sense that value coercion maps it to itself, the formal
reading of "already valid" for coerced internal values — coercing the
reconstructed literal recovers the value:
`coerceInputLiteral (astFromValue v T) T = v`.  Leaf (scalar/enum) parsing
behavior is external to this core and is assumed via `RoundTripReady`. -/
theorem coerceLiteral_astFromValue_roundtrip (t : GQLType)
    (hrt : RoundTripReady t) (v : Value)
    (hv : coerceInputValueImpl v t = some v) :
    coerceInputLiteral (astFromValue v (some t)) t none = some v :=
  roundtrip_aux (sizeOf t) t (Nat.le_refl _) hrt v hv

/-- Witness for C2: a list of booleans against List(Boolean) survives the
round trip. -/
theorem coerceLiteral_astFromValue_roundtrip_witness :
    coerceInputLiteral
        (astFromValue (.vList [.vBool true, .vBool false]) (some (.listT BoolT)))
        (.listT BoolT) none
      = some (.vList [.vBool true, .vBool false]) :=
  coerceLiteral_astFromValue_roundtrip (.listT BoolT)
    (.listT (.leaf boolLeaf_roundtrips)) (.vList [.vBool true, .vBool false])
    (by simp [coerceInputValueImpl, coerceListItems, BoolT, BoolLeaf])
